import Mathlib

/-!
Verification development for the PRU user-space driver (package `pru`):
a shallow embedding of the interrupt-controller configuration logic
(`Open`), the runtime primitives (`ClearEvent`, `signalReader`), the
event wait API (`Wait`, `WaitTimeout`) and the core-unit control
(`RunAt`), together with theorems about the register-write behaviour
these functions exhibit.

Register state is modelled as a word-addressed memory `Nat → Nat`
(32-bit words, byte offsets) plus an ordered write trace; Go maps are
modelled as association lists with unique keys; 64-bit registers are
two consecutive 32-bit words, low word first, exactly as `wr64`/`rd64`
in the source split them.
-/

namespace Pru

/-! ### Hardware constants (from the source's const blocks) -/

def nEvents : Nat := 64
def nChannels : Nat := 10
def nHostInts : Nat := 10
def nUnits : Nat := 2
def nSignals : Nat := nHostInts - 2

def am3xxPru0Ctl : Nat := 0x00022000
def am3xxPru1Ctl : Nat := 0x00024000
def am3xxIRamSize : Nat := 8 * 1024

def rGER : Nat := 0x20010
def rHIEISR : Nat := 0x20034
def rSRSR0 : Nat := 0x20200
def rSECR0 : Nat := 0x20280
def rESR0 : Nat := 0x20300
def rECR0 : Nat := 0x20380
def rCMRBase : Nat := 0x20400
def rHMRBase : Nat := 0x20800
def rSIPR0 : Nat := 0x20D00
def rSITR0 : Nat := 0x20D80

def c_CONTROL : Nat := 0x00
def ctl_RESET : Nat := 0x0001
def ctl_ENABLE : Nat := 0x0002

/-- All-ones 64-bit mask. -/
def mask64 : Nat := 2 ^ 64 - 1

/-- Go's `a &^ b` (and-not) on 64-bit unsigned values. -/
def andNot64 (a b : Nat) : Nat := a &&& (mask64 ^^^ (b &&& mask64))

/-! ### Association lists standing for Go maps -/

/-- Lookup in an association list (a Go map with unique keys). -/
def lookupA (m : List (Nat × Nat)) (k : Nat) : Option Nat :=
  match m with
  | [] => none
  | (k', v) :: rest => if k' = k then some v else lookupA rest k

/-- The keys of an association list. -/
def keysA (m : List (Nat × Nat)) : List Nat := m.map Prod.fst

/-- Go map assignment `m[k] = v` (overwrite any prior binding). -/
def insertA (m : List (Nat × Nat)) (k v : Nat) : List (Nat × Nat) :=
  match m with
  | [] => [(k, v)]
  | (k', v') :: rest => if k' = k then (k, v) :: rest else (k', v') :: insertA rest k v

/-! ### The register machine: memory plus an ordered write trace -/

/-- Machine state: 32-bit word memory indexed by byte offset, and the
ordered list of (offset, value) register writes performed so far. -/
structure Mach where
  mem : Nat → Nat
  trace : List (Nat × Nat)

/-- Go `p.wr(offs, v)`: store a 32-bit word (truncating) and log the write. -/
def Mach.wr (m : Mach) (off v : Nat) : Mach :=
  { mem := fun o => if o = off then v % 2 ^ 32 else m.mem o
    trace := m.trace ++ [(off, v % 2 ^ 32)] }

/-- Go `p.rd(offs)`: load a 32-bit word. -/
def Mach.rd (m : Mach) (off : Nat) : Nat := m.mem off

/-- Go `p.rd64(offs)`: low word at `offs`, high word at `offs+4`. -/
def Mach.rd64 (m : Mach) (off : Nat) : Nat :=
  m.rd off + (m.rd (off + 4)) <<< 32

/-- Go `p.wr64(offs, v)`: write `uint32(v)` then `uint32(v >> 32)`. -/
def Mach.wr64 (m : Mach) (off v : Nat) : Mach :=
  (m.wr off (v % 2 ^ 32)).wr (off + 4) ((v >>> 32) % 2 ^ 32)

/-- Go `p.write(src, dst)`: copy a word slice to successive offsets. -/
def Mach.writeList (m : Mach) (src : List Nat) (dst : Nat) : Mach :=
  match src with
  | [] => m
  | w :: rest => (m.wr dst w).writeList rest (dst + 4)

/-! ### Configuration (config.go) -/

/-- The `Config` structure: core-enable mask, event-to-channel map and
channel-to-host-interrupt map, as built by the `Config` methods. -/
structure Config where
  umask : Nat
  ev2chan : List (Nat × Nat)
  chan2hint : List (Nat × Nat)

/-- A `Config` reachable through the builder methods: every event id is
reduced mod 64, every channel mod 10, every host interrupt mod 10, and
map keys are unique (Go map semantics). -/
def Config.WF (pc : Config) : Prop :=
  (∀ p ∈ pc.ev2chan, p.1 < nEvents ∧ p.2 < nChannels) ∧
  (∀ p ∈ pc.chan2hint, p.1 < nChannels ∧ p.2 < nHostInts) ∧
  (keysA pc.ev2chan).Nodup ∧ (keysA pc.chan2hint).Nodup

instance (pc : Config) : Decidable pc.WF := by
  unfold Config.WF; infer_instance

/-! ### Config builder methods (config.go), over Go `int` arguments -/

/-- Go's `uint(x)` conversion of a 64-bit `int`. -/
def goUint64 (x : Int) : Nat := (x % (2 ^ 64 : Int)).toNat

/-- Go's `byte(x)` conversion of a 64-bit `int`. -/
def goByte (x : Int) : Nat := (x % (2 ^ 64 : Int)).toNat % 256

/-- Go's `1 << s` on `int` operands with an unsigned 64-bit count
(shift counts at or beyond the width produce 0), truncated to 64 bits. -/
def goShl1 (s : Nat) : Nat := if s < 64 then (1 <<< s) % 2 ^ 64 else 0

/-- Method `EnableUnit`: `ic.umask |= 1 << uint(u % nUnits)`. -/
def enableUnit (umask : Nat) (u : Int) : Nat :=
  umask ||| goShl1 (goUint64 (u.tmod (nUnits : Int)))

/-- Method `Event2Channel`: `ic.ev2chan[byte(s % nEvents)] = byte(c % nChannels)`. -/
def event2Channel (m : List (Nat × Nat)) (s c : Int) : List (Nat × Nat) :=
  insertA m (goByte (s.tmod (nEvents : Int))) (goByte (c.tmod (nChannels : Int)))

/-- Method `Channel2Interrupt`: `ic.chan2hint[byte(c % nChannels)] = byte(h % nHostInts)`. -/
def channel2Interrupt (m : List (Nat × Nat)) (c h : Int) : List (Nat × Nat) :=
  insertA m (goByte (c.tmod (nChannels : Int))) (goByte (h.tmod (nHostInts : Int)))

/-! ### Go array indexing (runtime bounds check) -/

/-- Go array access with an `int` index: `none` models the runtime
out-of-range panic. -/
def goIndex {α : Type} (xs : List α) (i : Int) : Option α :=
  if h : 0 ≤ i ∧ i.toNat < xs.length then some (xs.get ⟨i.toNat, h.2⟩) else none

/-! ### Event wait API (event file, `Wait` / `WaitTimeout`) -/

/-- Outcome of a `Wait` call. -/
inductive WaitRes where
  | usageError
  | blocked
  | received
deriving DecidableEq, Repr

/-- Method `Wait`: fails if a handler is registered, otherwise receives from the
event's notification queue (`blocked` models suspension on an empty
queue). Returns the outcome and the queue contents afterwards. -/
def waitStep (handlerRegistered : Bool) (queue : List Bool) : WaitRes × List Bool :=
  if handlerRegistered then (.usageError, queue)
  else
    match queue with
    | [] => (.blocked, [])
    | _ :: rest => (.received, rest)

/-- Outcome of a `WaitTimeout` call. -/
inductive WTRes where
  | usageError
  | blocked
  | received
  | timedOut
deriving DecidableEq, Repr

/-- Method `WaitTimeout`: fails if a handler is registered; otherwise a `select`
races the notification queue against the ticker. `timerFired` says
whether the ticker is ready, and `pick` resolves the race when both are
ready (Go chooses nondeterministically). The timeout branch performs no
receive, so the queue is returned untouched there. -/
def waitTimeoutStep (handlerRegistered : Bool) (queue : List Bool)
    (timerFired pick : Bool) : WTRes × List Bool :=
  if handlerRegistered then (.usageError, queue)
  else
    match queue, timerFired with
    | _ :: rest, false => (.received, rest)
    | v :: rest, true => if pick then (.received, rest) else (.timedOut, v :: rest)
    | [], true => (.timedOut, [])
    | [], false => (.blocked, [])

/-! ### Interrupt-controller configuration (`Open`, pru.go lines 148-224) -/

/-- Pointwise update of a function standing for a Go array. -/
def setFun {α : Type} (f : Nat → α) (i : Nat) (v : α) : Nat → α :=
  fun j => if j = i then v else f j

/-- The error `fmt.Errorf("chan %d not mapped to host interrupt", c)`. -/
def errChanNotMapped (c : Nat) : String :=
  "chan " ++ toString c ++ " not mapped to host interrupt"

/-- The error `fmt.Errorf("host interrupt %d has multiple channels assigned", hi)`. -/
def errMultiChan (hi : Nat) : String :=
  "host interrupt " ++ toString hi ++ " has multiple channels assigned"

/-- Accumulator of the event-map validation loop in `Open`. The CMR
image (a 16-word Go array) is modelled as a map from word index to
word value; only indices below 16 are ever touched or written back. -/
structure EvAcc where
  cmr : Nat → Nat
  sigMask : Nat → Nat
  evMask : Nat
  events : Nat → Option Nat

/-- The `for se, c := range pc.ev2chan` loop of `Open`: fold the channel
byte into the CMR word, require a channel-to-host-interrupt entry,
accumulate the per-signal and global event masks and create the Event
object (recorded here by its `hostInt` field). -/
def evLoop (chan2hint : List (Nat × Nat)) :
    List (Nat × Nat) → EvAcc → Except String EvAcc
  | [], acc => .ok acc
  | (se, c) :: rest, acc =>
    let cmr' := setFun acc.cmr (se / 4) ((acc.cmr (se / 4)) ||| ((c <<< ((se % 4) * 8)) % 2 ^ 32))
    match lookupA chan2hint c with
    | none => .error (errChanNotMapped c)
    | some hi =>
      let sig' := if 2 ≤ hi then
          setFun acc.sigMask (hi - 2) (acc.sigMask (hi - 2) ||| ((1 <<< se) % 2 ^ 64))
        else acc.sigMask
      evLoop chan2hint rest
        ⟨cmr', sig', acc.evMask ||| ((1 <<< se) % 2 ^ 64), setFun acc.events se (some hi)⟩

/-- Accumulator of the channel-map loop in `Open`; the HMR image (a
3-word Go array) is a map from word index to word value. -/
structure HmAcc where
  hmr : Nat → Nat
  hiMapped : Nat → Bool

/-- The `for c, hi := range pc.chan2hint` loop of `Open`: fold the host
interrupt byte into the HMR word; the guard reads `hiMapped[c]`
(indexed by the channel, as the source does). -/
def chLoop : List (Nat × Nat) → HmAcc → Except String HmAcc
  | [], acc => .ok acc
  | (c, hi) :: rest, acc =>
    if acc.hiMapped c then .error (errMultiChan hi)
    else chLoop rest
      { hmr := setFun acc.hmr (c / 4) ((acc.hmr (c / 4)) ||| ((hi <<< ((c % 4) * 8)) % 2 ^ 32))
        hiMapped := setFun acc.hiMapped c true }

/-- The `for i, hset := range hiMapped` loop: one `HIEISR` write per set
entry, in index order. -/
def hiEnableWrites (m : Mach) (hiMapped : Nat → Bool) : Mach :=
  (List.range nHostInts).foldl
    (fun mm i => if hiMapped i then mm.wr rHIEISR i else mm) m

/-- Result of applying a configuration. -/
structure OpenOut where
  err : Option String
  mach : Mach
  evMask : Nat
  sigMask : Nat → Nat
  events : Nat → Option Nat

/-- The hardware register-programming sequence of `Open` (pru.go lines
194-221): reset the enabled units, disable global interrupts, clear and
reprogram the event state and map tables, re-enable the used host
interrupts and global interrupts. -/
def openHw (m : Mach) (umask : Nat) (acc : EvAcc) (hacc : HmAcc) : Mach :=
  let m := if umask &&& 1 ≠ 0 then m.wr (am3xxPru0Ctl + c_CONTROL) 0 else m
  let m := if umask &&& 2 ≠ 0 then m.wr (am3xxPru1Ctl + c_CONTROL) 0 else m
  let m := m.wr rGER 0
  let esr := m.rd64 rESR0
  let m := m.wr64 rESR0 (andNot64 esr acc.evMask)
  let m := m.wr64 rECR0 acc.evMask
  let m := m.wr64 rSECR0 acc.evMask
  let m := m.wr64 rSIPR0 mask64
  let m := m.writeList ((List.range (nEvents / 4)).map acc.cmr) rCMRBase
  let m := m.writeList ((List.range ((nHostInts + 3) / 4)).map hacc.hmr) rHMRBase
  let m := m.wr64 rSITR0 0
  let m := m.wr64 rESR0 (acc.evMask ||| esr)
  let m := hiEnableWrites m hacc.hiMapped
  m.wr rGER 1

/-- The 64-bit value the ESR0/ESR1 pair holds before `Open` runs
(32-bit words, low word first, as `rd64` assembles them). -/
def initEsr (m0 : Nat → Nat) : Nat :=
  m0 rESR0 % 2 ^ 32 + (m0 (rESR0 + 4) % 2 ^ 32) <<< 32

/-- The configuration-application part of `Open` (after the mmap and
version detection, which are raw OS plumbing): validate the event map,
build the CMR/HMR images over the current hardware contents, then run
the register-programming sequence. `m0` is the initial register
memory. On a validation error nothing has been written. -/
def openIntc (pc : Config) (m0 : Nat → Nat) : OpenOut :=
  let m : Mach := ⟨fun o => m0 o % 2 ^ 32, []⟩
  let cmr0 : Nat → Nat := fun i => m.rd (rCMRBase + 4 * i)
  match evLoop pc.chan2hint pc.ev2chan ⟨cmr0, fun _ => 0, 0, fun _ => none⟩ with
  | .error e => ⟨some e, m, 0, fun _ => 0, fun _ => none⟩
  | .ok acc =>
    let hmr0 : Nat → Nat := fun i => m.rd (rHMRBase + 4 * i)
    match chLoop pc.chan2hint ⟨hmr0, fun _ => false⟩ with
    | .error e => ⟨some e, m, acc.evMask, acc.sigMask, acc.events⟩
    | .ok hacc =>
      ⟨none, openHw m pc.umask acc hacc, acc.evMask, acc.sigMask, acc.events⟩

/-- Method `ClearEvent`: the `p.events[se]` array access panics out of range
(modelled as the outer `none`); an unconfigured event returns an error
with no register write; otherwise clear the pending bit and re-enable
the event's host interrupt. -/
def clearEvent (events : List (Option Nat)) (se : Nat) (m : Mach) :
    Option (Option String × Mach) :=
  match events.get? se with
  | none => none
  | some none => some (some ("Event " ++ toString se ++ " not configured"), m)
  | some (some hostInt) =>
    some (none, (m.wr64 rSECR0 ((1 <<< se) % 2 ^ 64)).wr rHIEISR hostInt)

/-! ### The reader task fan-out (`signalReader`) -/

/-- For a positive number, the bit at `log2 n` is set. -/
theorem testBit_log2_self (n : Nat) (h : n ≠ 0) : n.testBit n.log2 = true := by
  have h1 : 2 ^ n.log2 ≤ n := Nat.log2_self_le h
  have h2 : n < 2 ^ (n.log2 + 1) := Nat.lt_log2_self
  have hd : n / 2 ^ n.log2 = 1 := by
    apply Nat.div_eq_of_lt_le
    · simpa using h1
    · simpa [Nat.pow_succ, Nat.mul_comm] using h2
  simp [Nat.testBit_to_div_mod, hd]

/-- Bits of `mask64`. -/
theorem testBit_mask64 (i : Nat) : mask64.testBit i = decide (i < 64) := by
  have h : mask64 = 2 ^ 64 - 1 := rfl
  rw [h, Nat.testBit_two_pow_sub_one]

/-- Clearing the top bit with `&^` strictly decreases a positive value:
the termination measure of the fan-out loop. -/
theorem andNot64_log2_lt (n : Nat) (h : ¬n = 0) :
    andNot64 n (1 <<< Nat.log2 n) < n := by
  rcases lt_or_le n (2 ^ 64) with hn | hn
  · -- the top bit is below 64 and gets cleared
    have hlog : n.log2 < 64 := by
      rw [Nat.log2_lt h]; exact hn
    apply lt_of_le_of_ne (Nat.and_le_left)
    intro he
    have := congrArg (fun x => x.testBit n.log2) he
    simp only [andNot64, Nat.one_shiftLeft, Nat.testBit_and, Nat.testBit_xor,
      Nat.testBit_two_pow, testBit_mask64, testBit_log2_self n h] at this
    simp [hlog] at this
  · -- n does not fit in 64 bits: `&^ mask64` already shrinks it
    have hlog : 64 ≤ n.log2 := by
      by_contra hc
      rw [not_le, Nat.log2_lt h] at hc
      exact absurd hn (not_le.mpr hc)
    have hzero : (1 <<< Nat.log2 n) &&& mask64 = 0 := by
      apply Nat.eq_of_testBit_eq
      intro i
      simp only [Nat.one_shiftLeft, Nat.testBit_and, Nat.testBit_two_pow,
        testBit_mask64, Nat.zero_testBit]
      rcases lt_or_le i 64 with hi | hi
      · have : n.log2 ≠ i := by omega
        simp [this]
      · simp [show ¬ i < 64 by omega]
    calc andNot64 n (1 <<< Nat.log2 n) ≤ mask64 ^^^ ((1 <<< Nat.log2 n) &&& mask64) :=
          Nat.and_le_right
      _ = mask64 := by rw [hzero]; simp
      _ < 2 ^ 64 := by norm_num [mask64]
      _ ≤ n := hn

/-- On the 64-bit pending set, `63 - bits.LeadingZeros64 events` is the
highest set bit; the loop clears it (`events &^= 1 << fs`) and repeats
until the set is empty, collecting bits in delivery order. -/
def bitsDesc (n : Nat) : List Nat :=
  if h : n = 0 then []
  else
    Nat.log2 n :: bitsDesc (andNot64 n (1 <<< Nat.log2 n))
termination_by n
decreasing_by exact andNot64_log2_lt n h

/-- Capacity of an Event's notification channel:
`ev.evChan = make(chan bool, 50)`. -/
def evChanCap : Nat := 50

/-- One non-blocking send of the fan-out loop,
`select { case p.events[fs].evChan <- true: default: }`: the
notification is appended to the event's buffered queue when the buffer
has free space, and dropped (the `default` branch) when it is full. -/
def trySend (queues : Nat → List Bool) (fs : Nat) : Nat → List Bool :=
  if (queues fs).length < evChanCap then setFun queues fs (queues fs ++ [true])
  else queues

/-- The fan-out loop body: one non-blocking send per pending bit, in
the scan order of the list. -/
def fanOut (queues : Nat → List Bool) (l : List Nat) : Nat → List Bool :=
  l.foldl trySend queues

/-- One successful 4-byte read in `signalReader`: compute the pending
events from the signal mask and the status register, clear exactly
those, re-enable the host interrupt, then run the fan-out loop over
the per-event notification queues. The middle component records the
order in which the loop attempts the sends (its iteration order). -/
def signalReaderStep (hi : Nat) (mask : Nat) (m : Mach) (queues : Nat → List Bool) :
    Mach × List Nat × (Nat → List Bool) :=
  let events := mask &&& m.rd64 rSRSR0
  let m := m.wr64 rSECR0 events
  let m := m.wr rHIEISR hi
  (m, bitsDesc events, fanOut queues (bitsDesc events))

/-! ### Core unit control (unit.go `RunAt`) -/

/-- Method `Unit.RunAt`: validate word alignment and IRAM range, then disable
the core and write the control register with the encoded start address.
Returns an error message, or `none` on success, with the machine. -/
def runAt (ctlBase : Nat) (addr : Nat) (m : Mach) : Option String × Mach :=
  if addr % 4 ≠ 0 then (some "start address is not 32 bit aligned", m)
  else if am3xxIRamSize ≤ addr then (some "start address out of range", m)
  else
    let m := m.wr (ctlBase + c_CONTROL) ctl_RESET
    let m := m.wr (ctlBase + c_CONTROL) (((addr % 2 ^ 32) <<< (16 - 2)) ||| ctl_ENABLE)
    (none, m)

/-! ## Machine lemmas -/

theorem mem_wr_self (m : Mach) (off v : Nat) : (m.wr off v).mem off = v % 2 ^ 32 := by
  simp [Mach.wr]

theorem mem_wr_ne (m : Mach) (off v o : Nat) (h : o ≠ off) :
    (m.wr off v).mem o = m.mem o := by
  simp [Mach.wr, h]

theorem mem_ite_wr_ne (c : Prop) [Decidable c] (m : Mach) (off v o : Nat) (h : o ≠ off) :
    (if c then m.wr off v else m).mem o = m.mem o := by
  split
  · exact mem_wr_ne m off v o h
  · rfl

theorem mem_wr64_ne (m : Mach) (off v o : Nat) (h1 : o ≠ off) (h2 : o ≠ off + 4) :
    (m.wr64 off v).mem o = m.mem o := by
  unfold Mach.wr64
  rw [mem_wr_ne _ _ _ _ h2, mem_wr_ne _ _ _ _ h1]

theorem rd64_wr64_self (m : Mach) (off v : Nat) (hv : v < 2 ^ 64) :
    (m.wr64 off v).rd64 off = v := by
  unfold Mach.wr64 Mach.rd64 Mach.rd
  have hne : off ≠ off + 4 := by omega
  rw [mem_wr_ne _ _ _ _ hne, mem_wr_self, mem_wr_self]
  have h32 : v >>> 32 < 2 ^ 32 := by
    rw [Nat.shiftRight_eq_div_pow]
    omega
  rw [Nat.shiftLeft_eq, Nat.shiftRight_eq_div_pow]
  omega

theorem writeList_mem_lt (ws : List Nat) (m : Mach) (base o : Nat) (h : o < base) :
    (m.writeList ws base).mem o = m.mem o := by
  induction ws generalizing m base with
  | nil => rfl
  | cons w rest ih =>
    show ((m.wr base w).writeList rest (base + 4)).mem o = m.mem o
    rw [ih _ _ (by omega), mem_wr_ne _ _ _ _ (by omega)]

theorem writeList_mem_ge (ws : List Nat) (m : Mach) (base o : Nat)
    (h : base + 4 * ws.length ≤ o) :
    (m.writeList ws base).mem o = m.mem o := by
  induction ws generalizing m base with
  | nil => rfl
  | cons w rest ih =>
    show ((m.wr base w).writeList rest (base + 4)).mem o = m.mem o
    simp only [List.length_cons] at h
    rw [ih _ _ (by omega), mem_wr_ne _ _ _ _ (by omega)]

theorem writeList_mem_at (ws : List Nat) (m : Mach) (base i : Nat) (h : i < ws.length) :
    (m.writeList ws base).mem (base + 4 * i) = ws.getD i 0 % 2 ^ 32 := by
  induction ws generalizing m base i with
  | nil => simp at h
  | cons w rest ih =>
    show ((m.wr base w).writeList rest (base + 4)).mem (base + 4 * i) = _
    match i with
    | 0 =>
      have hb : base + 4 * 0 = base := by omega
      rw [hb, writeList_mem_lt _ _ _ _ (by omega), mem_wr_self]
      rfl
    | j + 1 =>
      have hb : base + 4 * (j + 1) = (base + 4) + 4 * j := by omega
      rw [hb, ih _ _ _ (by simpa using h)]
      rfl

theorem foldl_hiEnable_mem (l : List Nat) (f : Nat → Bool) (m : Mach) (o : Nat)
    (h : o ≠ rHIEISR) :
    (l.foldl (fun mm i => if f i then mm.wr rHIEISR i else mm) m).mem o = m.mem o := by
  induction l generalizing m with
  | nil => rfl
  | cons a rest ih =>
    show (rest.foldl _ (if f a then m.wr rHIEISR a else m)).mem o = m.mem o
    rw [ih]
    exact mem_ite_wr_ne _ _ _ _ _ h

theorem hiEnableWrites_mem (m : Mach) (f : Nat → Bool) (o : Nat) (h : o ≠ rHIEISR) :
    (hiEnableWrites m f).mem o = m.mem o :=
  foldl_hiEnable_mem _ f m o h

/-! ## C7: wait while a handler is registered -/

/-- C7: with a handler registered, `Wait` and `WaitTimeout` return the
usage error at once — no blocking outcome and no receive from the
notification queue, which is returned untouched. -/
theorem wait_with_handler_usage_error :
    ∀ (q : List Bool) (tf pick : Bool),
      waitStep true q = (WaitRes.usageError, q) ∧
      waitTimeoutStep true q tf pick = (WTRes.usageError, q) := by
  intro q tf pick
  exact ⟨rfl, rfl⟩

/-! ## C8: a timed-out WaitTimeout consumes nothing -/

/-- C8: whenever `WaitTimeout` reports a timeout, the notification queue
is exactly as it was, and a notification arriving afterwards is
received by the next wait on the event. -/
theorem waitTimeout_timeout_preserves_queue (hr : Bool) (q : List Bool) (tf pick : Bool)
    (h : (waitTimeoutStep hr q tf pick).1 = WTRes.timedOut) :
    (waitTimeoutStep hr q tf pick).2 = q ∧
    ∀ v : Bool, (waitStep false ((waitTimeoutStep hr q tf pick).2 ++ [v])).1 = WaitRes.received := by
  cases hr <;> cases q <;> cases tf <;> cases pick <;>
    simp_all [waitTimeoutStep, waitStep]

/-- C8 witness: a concrete timed-out call on an empty queue. -/
theorem waitTimeout_timeout_preserves_queue_witness :
    (waitTimeoutStep false [] true false).1 = WTRes.timedOut ∧
    ((waitTimeoutStep false [] true false).2 = [] ∧
      ∀ v : Bool, (waitStep false ((waitTimeoutStep false [] true false).2 ++ [v])).1 =
        WaitRes.received) :=
  ⟨by decide, waitTimeout_timeout_preserves_queue false [] true false (by decide)⟩

/-! ## C9: RunAt validation -/

/-- C9: `RunAt` reports an error exactly for an unaligned or
out-of-range start address, and such an error leaves the machine
(registers and write trace) untouched; aligned in-range addresses
succeed. -/
theorem runAt_validation (ctlBase addr : Nat) (m : Mach) :
    ((runAt ctlBase addr m).1.isSome ↔ (addr % 4 ≠ 0 ∨ am3xxIRamSize ≤ addr)) ∧
    ((runAt ctlBase addr m).1.isSome → (runAt ctlBase addr m).2 = m) := by
  unfold runAt
  by_cases h1 : addr % 4 = 0
  · by_cases h2 : am3xxIRamSize ≤ addr
    · simp [h1, h2]
    · simp [h1, h2]
  · simp [h1]

/-- C9 witness: the unaligned address 6 is rejected without a write,
and address 40 is accepted. -/
theorem runAt_validation_witness :
    (((runAt am3xxPru0Ctl 6 ⟨fun _ => 0, []⟩).1.isSome ↔
        (6 % 4 ≠ 0 ∨ am3xxIRamSize ≤ 6)) ∧
      ((runAt am3xxPru0Ctl 6 ⟨fun _ => 0, []⟩).1.isSome →
        (runAt am3xxPru0Ctl 6 ⟨fun _ => 0, []⟩).2 = ⟨fun _ => 0, []⟩)) ∧
    (runAt am3xxPru0Ctl 40 ⟨fun _ => 0, []⟩).1 = none :=
  ⟨runAt_validation am3xxPru0Ctl 6 ⟨fun _ => 0, []⟩, by decide⟩

/-! ## C4: ClearEvent on an unconfigured event -/

/-- C4 (amended): `ClearEvent` on a configured-array slot holding no
event returns the error with no register write at all — the machine,
including its write trace, is returned unchanged (the pending-bit
clear is not performed either). -/
theorem clearEvent_unconfigured_no_write (evs : List (Option Nat)) (se : Nat) (m : Mach)
    (h : evs.get? se = some none) :
    clearEvent evs se m = some (some ("Event " ++ toString se ++ " not configured"), m) := by
  unfold clearEvent
  rw [h]

/-- C4 witness: event 3 of an all-unconfigured event array. -/
theorem clearEvent_unconfigured_no_write_witness :
    (List.replicate 64 (none : Option Nat)).get? 3 = some none ∧
    clearEvent (List.replicate 64 none) 3 ⟨fun _ => 0, []⟩ =
      some (some ("Event " ++ toString 3 ++ " not configured"), ⟨fun _ => 0, []⟩) :=
  ⟨by decide, clearEvent_unconfigured_no_write _ 3 _ (by decide)⟩

/-- C4 counterexample: at a concrete unconfigured event the call errors
with an empty write trace, so the pending-bit clear the claim promises
was never written. -/
theorem clearEvent_clear_then_error_refuted :
    ((clearEvent (List.replicate 64 none) 3 ⟨fun _ => 0, []⟩).map
      (fun r => (r.1.isSome, r.2.trace))) = some (true, []) := rfl

/-! ## C6: duplicate host-interrupt assignment is not rejected -/

/-- C6: a configuration mapping the two distinct channels 0 and 1 to
the same host interrupt 5 is accepted by `Open` — the guard reads
`hiMapped[c]` with `c` a (unique) map key, so the rejection the code's
own error message describes can never fire. -/
theorem open_accepts_duplicate_host_interrupt :
    lookupA [(0, 5), (1, 5)] 0 = some 5 ∧ lookupA [(0, 5), (1, 5)] 1 = some 5 ∧
    (openIntc ⟨0, [(16, 0)], [(0, 5), (1, 5)]⟩ (fun _ => 0)).err = none := by
  refine ⟨rfl, rfl, ?_⟩
  decide

/-! ## C10: unchecked accessors versus reducing builders -/

theorem goUint64_coe (n : Nat) : goUint64 (n : Int) = n % 2 ^ 64 := by
  unfold goUint64
  push_cast
  omega

theorem goByte_coe (n : Nat) : goByte (n : Int) = n % 256 := by
  unfold goByte
  push_cast
  omega

theorem tmod_coe (a b : Nat) : (a : Int).tmod (b : Int) = ((a % b : Nat) : Int) :=
  (Int.ofNat_tmod a b).symm

theorem goShl1_small (s : Nat) (h : s < 64) : goShl1 s = 1 <<< s := by
  unfold goShl1
  rw [if_pos h, Nat.one_shiftLeft, Nat.mod_eq_of_lt]
  exact Nat.pow_lt_pow_right (by norm_num) h

theorem goIndex_isSome {α : Type} (xs : List α) (i : Int) :
    (goIndex xs i).isSome ↔ 0 ≤ i ∧ i < (xs.length : Int) := by
  unfold goIndex
  split
  · rename_i hc
    simp only [Option.isSome_some, true_iff]
    exact ⟨hc.1, (Int.toNat_lt hc.1).mp hc.2⟩
  · rename_i hc
    simp only [Option.isSome_none, Bool.false_eq_true, false_iff]
    rintro ⟨h1, h2⟩
    exact hc ⟨h1, (Int.toNat_lt h1).mpr h2⟩

/-- C10: `Unit`, `Event` and `ClearEvent` validate nothing — their array
accesses are in bounds exactly on 0 ≤ u < 2, 0 ≤ id < 64 and se < 64
respectively, and panic (modelled `none`) outside — while the `Config`
builder methods reduce their arguments modulo the valid range. -/
theorem accessor_bounds_and_builder_reduction :
    (∀ (units : List (Option Nat)) (u : Int), units.length = nUnits →
        ((goIndex units u).isSome ↔ 0 ≤ u ∧ u < 2)) ∧
    (∀ (evs : List (Option Nat)) (id : Int), evs.length = nEvents →
        ((goIndex evs id).isSome ↔ 0 ≤ id ∧ id < 64)) ∧
    (∀ (evs : List (Option Nat)) (se : Nat) (m : Mach), evs.length = nEvents →
        ((clearEvent evs se m).isSome ↔ se < 64)) ∧
    (∀ (umask u : Nat), enableUnit umask (u : Int) = umask ||| 1 <<< (u % 2)) ∧
    (∀ (mp : List (Nat × Nat)) (s c : Nat),
        event2Channel mp (s : Int) (c : Int) = insertA mp (s % 64) (c % 10)) ∧
    (∀ (mp : List (Nat × Nat)) (c h : Nat),
        channel2Interrupt mp (c : Int) (h : Int) = insertA mp (c % 10) (h % 10)) := by
  refine ⟨?_, ?_, ?_, ?_, ?_, ?_⟩
  · intro units u hlen
    rw [goIndex_isSome, hlen]
    norm_num [nUnits]
  · intro evs id hlen
    rw [goIndex_isSome, hlen]
    norm_num [nEvents]
  · intro evs se m hlen
    unfold clearEvent
    cases hq : evs.get? se with
    | none =>
      rw [List.get?_eq_none, hlen] at hq
      have hq64 : 64 ≤ se := hq
      simp only [Option.isSome_none, Bool.false_eq_true, false_iff]
      omega
    | some o =>
      have hlt : se < 64 := by
        by_contra hge
        have hnone : evs.get? se = none := by
          rw [List.get?_eq_none, hlen]
          show 64 ≤ se
          omega
        rw [hnone] at hq
        exact Option.noConfusion hq
      cases o <;> simp [hlt]
  · intro umask u
    unfold enableUnit
    rw [tmod_coe, goUint64_coe]
    have h2 : u % nUnits % 2 ^ 64 = u % 2 := by
      show u % 2 % 2 ^ 64 = u % 2
      omega
    rw [h2, goShl1_small _ (by omega)]
  · intro mp s c
    unfold event2Channel
    rw [tmod_coe, tmod_coe, goByte_coe, goByte_coe]
    have h1 : s % nEvents % 256 = s % 64 := by show s % 64 % 256 = s % 64; omega
    have h2 : c % nChannels % 256 = c % 10 := by show c % 10 % 256 = c % 10; omega
    rw [h1, h2]
  · intro mp c h
    unfold channel2Interrupt
    rw [tmod_coe, tmod_coe, goByte_coe, goByte_coe]
    have h1 : c % nChannels % 256 = c % 10 := by show c % 10 % 256 = c % 10; omega
    have h2 : h % nHostInts % 256 = h % 10 := by show h % 10 % 256 = h % 10; omega
    rw [h1, h2]

/-- C10 witness: concrete in-range and out-of-range accesses and a
concrete builder reduction. -/
theorem accessor_bounds_and_builder_reduction_witness :
    (List.replicate 2 (none : Option Nat)).length = nUnits ∧
    ((goIndex (List.replicate 2 (none : Option Nat)) 5).isSome ↔
      0 ≤ (5 : Int) ∧ (5 : Int) < 2) ∧
    enableUnit 0 ((3 : Nat) : Int) = 0 ||| 1 <<< (3 % 2) :=
  ⟨by decide,
   accessor_bounds_and_builder_reduction.1 _ 5 (by decide),
   accessor_bounds_and_builder_reduction.2.2.2.1 0 3⟩

/-! ## C3: reader-task fan-out -/

theorem two_pow_le_of_testBit {n i : Nat} (h : n.testBit i = true) : 2 ^ i ≤ n := by
  rw [Nat.testBit_to_div_mod, decide_eq_true_eq] at h
  have h1 : 1 ≤ n / 2 ^ i := by
    rcases Nat.eq_zero_or_pos (n / 2 ^ i) with hz | hp
    · rw [hz] at h
      simp at h
    · exact hp
  calc 2 ^ i = 1 * 2 ^ i := (one_mul _).symm
    _ ≤ n / 2 ^ i * 2 ^ i := Nat.mul_le_mul_right _ h1
    _ ≤ n := Nat.div_mul_le_self n _

/-- Clearing the top bit with `&^ (1 << log2 n)` keeps exactly the other
set bits (for 64-bit values). -/
theorem clearTop_testBit {n : Nat} (hlt : n < 2 ^ 64) (e : Nat) :
    ((andNot64 n (1 <<< Nat.log2 n)).testBit e = true ↔
      (n.testBit e = true ∧ e ≠ Nat.log2 n)) := by
  have hlog : n.log2 < 64 := by
    rcases eq_or_ne n 0 with h0 | h0
    · simp [h0, Nat.log2]
    · rw [Nat.log2_lt h0]; exact hlt
  by_cases hfe : e = Nat.log2 n
  · subst hfe
    simp [andNot64, Nat.one_shiftLeft, Nat.testBit_and, Nat.testBit_xor,
      Nat.testBit_two_pow, testBit_mask64, hlog]
  · rcases lt_or_le e 64 with he | he
    · simp only [andNot64, Nat.one_shiftLeft, Nat.testBit_and, Nat.testBit_xor,
        Nat.testBit_two_pow, testBit_mask64]
      have h1 : decide (e < 64) = true := by simp [he]
      have h2 : decide (Nat.log2 n = e) = false := by
        simp only [decide_eq_false_iff_not]
        exact fun hh => hfe hh.symm
      rw [h1, h2]
      simp [hfe]
    · have hb : n.testBit e = false :=
        Nat.testBit_lt_two_pow (lt_of_lt_of_le hlt (Nat.pow_le_pow_right (by norm_num) he))
      simp [andNot64, Nat.one_shiftLeft, Nat.testBit_and, Nat.testBit_xor,
        Nat.testBit_two_pow, testBit_mask64, hb, show ¬e < 64 by omega]

/-- The fan-out loop delivers exactly the set bits of the pending set. -/
theorem bitsDesc_mem (e : Nat) : ∀ n : Nat, n < 2 ^ 64 →
    (e ∈ bitsDesc n ↔ n.testBit e = true) := by
  intro n
  induction n using Nat.strong_induction_on with
  | _ n ih =>
    intro hlt
    rw [bitsDesc]
    rcases eq_or_ne n 0 with h0 | h0
    · simp [h0]
    · rw [dif_neg h0]
      have hdec : andNot64 n (1 <<< Nat.log2 n) < n := andNot64_log2_lt n h0
      have hle : andNot64 n (1 <<< Nat.log2 n) ≤ n := Nat.and_le_left
      rw [List.mem_cons, ih _ hdec (lt_of_le_of_lt hle hlt), clearTop_testBit hlt e]
      constructor
      · rintro (rfl | ⟨hb, _⟩)
        · exact testBit_log2_self n h0
        · exact hb
      · intro hb
        by_cases hfe : e = n.log2
        · exact Or.inl hfe
        · exact Or.inr ⟨hb, hfe⟩

/-- The fan-out loop delivers bits in strictly descending order:
highest set bit first. -/
theorem bitsDesc_sorted : ∀ n : Nat, n < 2 ^ 64 → (bitsDesc n).Sorted (· > ·) := by
  intro n
  induction n using Nat.strong_induction_on with
  | _ n ih =>
    intro hlt
    rw [bitsDesc]
    rcases eq_or_ne n 0 with h0 | h0
    · simp [h0]
    · rw [dif_neg h0]
      have hdec : andNot64 n (1 <<< Nat.log2 n) < n := andNot64_log2_lt n h0
      have hle : andNot64 n (1 <<< Nat.log2 n) ≤ n := Nat.and_le_left
      have hlt' : andNot64 n (1 <<< Nat.log2 n) < 2 ^ 64 := lt_of_le_of_lt hle hlt
      rw [List.sorted_cons]
      refine ⟨?_, ih _ hdec hlt'⟩
      intro b hb
      rw [bitsDesc_mem b _ hlt', clearTop_testBit hlt b] at hb
      obtain ⟨hbit, hne⟩ := hb
      have hble : b ≤ n.log2 := (Nat.le_log2 h0).mpr (two_pow_le_of_testBit hbit)
      omega

theorem trySend_ne (queues : Nat → List Bool) (a e : Nat) (h : e ≠ a) :
    trySend queues a e = queues e := by
  unfold trySend
  split
  · simp [setFun, h]
  · rfl

theorem trySend_self (queues : Nat → List Bool) (a : Nat) :
    trySend queues a a =
      if (queues a).length < evChanCap then queues a ++ [true] else queues a := by
  by_cases h : (queues a).length < evChanCap
  · simp [trySend, setFun, h]
  · simp [trySend, h]

/-- Effect of the fan-out loop on one event's queue: at most one send
is attempted per event (the scan list has no duplicates), and the send
enqueues exactly when the queue is below capacity, dropping the
notification otherwise. -/
theorem fanOut_apply : ∀ l : List Nat, l.Nodup → ∀ (queues : Nat → List Bool) (e : Nat),
    fanOut queues l e =
      if e ∈ l ∧ (queues e).length < evChanCap then queues e ++ [true] else queues e := by
  intro l
  induction l with
  | nil =>
    intro _ queues e
    simp [fanOut]
  | cons a rest ih =>
    intro hnd queues e
    rw [List.nodup_cons] at hnd
    show fanOut (trySend queues a) rest e = _
    rw [ih hnd.2 (trySend queues a) e]
    by_cases hea : e = a
    · have hnotin : e ∉ rest := by rw [hea]; exact hnd.1
      have hmem : e ∈ a :: rest := by rw [hea]; exact List.mem_cons_self _ _
      have hstep : trySend queues a e =
          if (queues e).length < evChanCap then queues e ++ [true] else queues e := by
        rw [hea, trySend_self]
      rw [hstep]
      by_cases hlen : (queues e).length < evChanCap
      · have hno1 : ¬(e ∈ rest ∧ (queues e ++ [true]).length < evChanCap) :=
          fun hand => hnotin hand.1
        rw [if_pos hlen, if_neg hno1, if_pos ⟨hmem, hlen⟩]
      · have hno1 : ¬(e ∈ rest ∧ (queues e).length < evChanCap) :=
          fun hand => hnotin hand.1
        have hno2 : ¬(e ∈ a :: rest ∧ (queues e).length < evChanCap) :=
          fun hand => hlen hand.2
        rw [if_neg hlen, if_neg hno1, if_neg hno2]
    · rw [trySend_ne _ _ _ hea]
      simp [List.mem_cons, hea]

/-- C3 (amended): one reader step computes the pending set as
`mask & SRSR`, writes exactly that value to the clear-register pair,
re-enables the host interrupt, and then attempts one non-blocking
notification send per pending bit, in a single fixed bit-scan order
(strictly descending, highest set bit first); each send appends to the
event's queue exactly when that queue is below its capacity of 50 and
drops the notification otherwise — so exactly one notification per
pending bit is enqueued whenever no affected queue is full. -/
theorem signalReader_fanout_spec (hi mask : Nat) (m : Mach) (queues : Nat → List Bool)
    (hm : mask < 2 ^ 64) :
    ((signalReaderStep hi mask m queues).1.trace = m.trace ++
      [(rSECR0, (mask &&& m.rd64 rSRSR0) % 2 ^ 32),
       (rSECR0 + 4, ((mask &&& m.rd64 rSRSR0) >>> 32) % 2 ^ 32),
       (rHIEISR, hi % 2 ^ 32)]) ∧
    (∀ e, e ∈ (signalReaderStep hi mask m queues).2.1 ↔
      (mask &&& m.rd64 rSRSR0).testBit e = true) ∧
    (signalReaderStep hi mask m queues).2.1.Sorted (· > ·) ∧
    (signalReaderStep hi mask m queues).2.1.Nodup ∧
    (∀ e, (signalReaderStep hi mask m queues).2.2 e =
      if (mask &&& m.rd64 rSRSR0).testBit e = true ∧ (queues e).length < evChanCap
      then queues e ++ [true] else queues e) := by
  have hev : mask &&& m.rd64 rSRSR0 < 2 ^ 64 := lt_of_le_of_lt Nat.and_le_left hm
  refine ⟨?_, ?_, ?_, ?_, ?_⟩
  · simp [signalReaderStep, Mach.wr64, Mach.wr]
  · intro e
    exact bitsDesc_mem e _ hev
  · exact bitsDesc_sorted _ hev
  · exact (bitsDesc_sorted _ hev).nodup
  · intro e
    show fanOut queues (bitsDesc (mask &&& m.rd64 rSRSR0)) e = _
    rw [fanOut_apply _ (bitsDesc_sorted _ hev).nodup queues e]
    simp only [bitsDesc_mem e _ hev]

/-- C3 witness: a concrete read with pending set 0b1010101 over empty
queues; the scan list is strictly descending and each pending event's
queue receives its notification. -/
theorem signalReader_fanout_spec_witness :
    (255 : Nat) < 2 ^ 64 ∧
    ((signalReaderStep 3 255 ⟨fun o => if o = rSRSR0 then 85 else 0, []⟩
        (fun _ => [])).2.1.Sorted (· > ·) ∧
      ∀ e, (signalReaderStep 3 255 ⟨fun o => if o = rSRSR0 then 85 else 0, []⟩
          (fun _ => [])).2.2 e =
        if (255 &&& Mach.rd64 ⟨fun o => if o = rSRSR0 then 85 else 0, []⟩ rSRSR0).testBit e
            = true ∧ (([] : List Bool)).length < evChanCap
        then ([] : List Bool) ++ [true] else []) :=
  ⟨by norm_num,
   ⟨(signalReader_fanout_spec 3 255 ⟨fun o => if o = rSRSR0 then 85 else 0, []⟩
      (fun _ => []) (by norm_num)).2.2.1,
    (signalReader_fanout_spec 3 255 ⟨fun o => if o = rSRSR0 then 85 else 0, []⟩
      (fun _ => []) (by norm_num)).2.2.2.2⟩⟩

/-- C3 counterexample: event 0 is pending, but its notification queue
already holds 50 entries (the channel's capacity), so the non-blocking
send takes the `default` branch and the queue is unchanged — no
notification is enqueued for that pending bit. -/
theorem signalReader_enqueue_per_bit_refuted :
    ((255 : Nat) &&& Mach.rd64 ⟨fun o => if o = rSRSR0 then 1 else 0, []⟩ rSRSR0).testBit 0
      = true ∧
    (signalReaderStep 3 255 ⟨fun o => if o = rSRSR0 then 1 else 0, []⟩
      (fun _ => List.replicate 50 true)).2.2 0 = List.replicate 50 true := by
  constructor
  · decide
  · show fanOut (fun _ => List.replicate 50 true)
      (bitsDesc ((255 : Nat) &&& Mach.rd64 ⟨fun o => if o = rSRSR0 then 1 else 0, []⟩ rSRSR0))
      0 = _
    rw [fanOut_apply _ (bitsDesc_sorted _ (by
        exact lt_of_le_of_lt Nat.and_le_left (by norm_num))).nodup _ 0]
    rw [if_neg]
    rintro ⟨-, hlen⟩
    simp [evChanCap] at hlen

/-! ## Validation-loop lemmas for `Open` -/

theorem evLoop_error_of_unmapped (ch : List (Nat × Nat)) :
    ∀ l : List (Nat × Nat), (∃ p ∈ l, lookupA ch p.2 = none) →
      ∃ c, (∃ se, (se, c) ∈ l) ∧ lookupA ch c = none ∧
        ∀ acc, evLoop ch l acc = .error (errChanNotMapped c) := by
  intro l
  induction l with
  | nil =>
    rintro ⟨p, hp, -⟩
    exact absurd hp (List.not_mem_nil p)
  | cons hd rest ih =>
    rintro hex
    obtain ⟨se1, c1⟩ := hd
    cases hc : lookupA ch c1 with
    | none =>
      refine ⟨c1, ⟨se1, List.mem_cons_self _ _⟩, hc, fun acc => ?_⟩
      simp [evLoop, hc]
    | some hi =>
      have hex' : ∃ p ∈ rest, lookupA ch p.2 = none := by
        obtain ⟨p, hp, hnone⟩ := hex
        rcases List.mem_cons.mp hp with rfl | hmem
        · rw [hc] at hnone
          exact absurd hnone (by simp)
        · exact ⟨p, hmem, hnone⟩
      obtain ⟨c, ⟨se, hsec⟩, hnone, hall⟩ := ih hex'
      refine ⟨c, ⟨se, List.mem_cons_of_mem _ hsec⟩, hnone, fun acc => ?_⟩
      simp only [evLoop, hc]
      exact hall _

theorem evLoop_ok_of_mapped (ch : List (Nat × Nat)) :
    ∀ l : List (Nat × Nat), (∀ p ∈ l, (lookupA ch p.2).isSome) →
      ∀ acc, ∃ acc', evLoop ch l acc = .ok acc' := by
  intro l
  induction l with
  | nil =>
    intro _ acc
    exact ⟨acc, rfl⟩
  | cons hd rest ih =>
    intro hmap acc
    obtain ⟨se1, c1⟩ := hd
    have h1 := hmap (se1, c1) (List.mem_cons_self _ _)
    cases hc : lookupA ch c1 with
    | none =>
      rw [hc] at h1
      exact absurd h1 (by simp)
    | some hi =>
      simp only [evLoop, hc]
      exact ih (fun p hp => hmap p (List.mem_cons_of_mem _ hp)) _

theorem evLoop_evMask_testBit (ch : List (Nat × Nat)) :
    ∀ l : List (Nat × Nat), (∀ p ∈ l, p.1 < 64) →
      ∀ acc acc', evLoop ch l acc = .ok acc' →
        ∀ e, (acc'.evMask.testBit e = true ↔
          (acc.evMask.testBit e = true ∨ ∃ c, (e, c) ∈ l)) := by
  intro l
  induction l with
  | nil =>
    intro _ acc acc' heq e
    cases heq
    simp
  | cons hd rest ih =>
    intro hwf acc acc' heq e
    obtain ⟨se1, c1⟩ := hd
    cases hc : lookupA ch c1 with
    | none =>
      simp only [evLoop, hc] at heq
      exact absurd heq (by simp)
    | some hi =>
      simp only [evLoop, hc] at heq
      rw [ih (fun p hp => hwf p (List.mem_cons_of_mem _ hp)) _ _ heq e]
      have hse1 : se1 < 64 := hwf (se1, c1) (List.mem_cons_self _ _)
      have hbit : ((acc.evMask ||| ((1 <<< se1) % 2 ^ 64)).testBit e = true) ↔
          (acc.evMask.testBit e = true ∨ e = se1) := by
        rw [Nat.testBit_or, Nat.one_shiftLeft, Nat.testBit_mod_two_pow, Nat.testBit_two_pow]
        rcases eq_or_ne e se1 with rfl | hne
        · simp [show e < 64 from hse1]
        · have hd : decide (se1 = e) = false := by
            simp only [decide_eq_false_iff_not]
            exact fun hh => hne hh.symm
          rw [hd]
          simp [hne]
      rw [hbit]
      simp only [List.mem_cons, Prod.mk.injEq]
      constructor
      · rintro ((hb | rfl) | ⟨c, hcmem⟩)
        · exact Or.inl hb
        · exact Or.inr ⟨c1, Or.inl ⟨rfl, rfl⟩⟩
        · exact Or.inr ⟨c, Or.inr hcmem⟩
      · rintro (hb | ⟨c, ⟨rfl, rfl⟩ | hcmem⟩)
        · exact Or.inl (Or.inl hb)
        · exact Or.inl (Or.inr rfl)
        · exact Or.inr ⟨c, hcmem⟩

theorem evLoop_evMask_lt (ch : List (Nat × Nat)) :
    ∀ l : List (Nat × Nat), ∀ acc acc', evLoop ch l acc = .ok acc' →
      acc.evMask < 2 ^ 64 → acc'.evMask < 2 ^ 64 := by
  intro l
  induction l with
  | nil =>
    intro acc acc' heq h
    cases heq
    exact h
  | cons hd rest ih =>
    intro acc acc' heq h
    obtain ⟨se1, c1⟩ := hd
    cases hc : lookupA ch c1 with
    | none =>
      simp only [evLoop, hc] at heq
      exact absurd heq (by simp)
    | some hi =>
      simp only [evLoop, hc] at heq
      exact ih _ _ heq (Nat.or_lt_two_pow h (Nat.mod_lt _ (by norm_num)))

theorem chLoop_ok_of_nodup :
    ∀ l : List (Nat × Nat), (keysA l).Nodup →
      ∀ acc, (∀ c ∈ keysA l, acc.hiMapped c = false) →
        ∃ acc', chLoop l acc = .ok acc' := by
  intro l
  induction l with
  | nil =>
    intro _ acc _
    exact ⟨acc, rfl⟩
  | cons hd rest ih =>
    intro hnd acc hfalse
    obtain ⟨c1, hi1⟩ := hd
    have hkeys : keysA ((c1, hi1) :: rest) = c1 :: keysA rest := rfl
    rw [hkeys, List.nodup_cons] at hnd
    have hc1 : acc.hiMapped c1 = false := hfalse c1 (by rw [hkeys]; exact List.mem_cons_self _ _)
    simp only [chLoop, hc1, Bool.false_eq_true, if_false]
    refine ih hnd.2 _ ?_
    intro c hc
    have hne : c ≠ c1 := by
      intro hcc
      exact hnd.1 (hcc ▸ hc)
    simp only [setFun, if_neg hne]
    exact hfalse c (by rw [hkeys]; exact List.mem_cons_of_mem _ hc)

/-! ## rd64 non-interference helpers -/

theorem rd64_wr_ne (m : Mach) (off v o : Nat) (h1 : o ≠ off) (h2 : o + 4 ≠ off) :
    (m.wr off v).rd64 o = m.rd64 o := by
  unfold Mach.rd64 Mach.rd
  rw [mem_wr_ne _ _ _ _ h1, mem_wr_ne _ _ _ _ h2]

theorem rd64_ite_wr_ne (c : Prop) [Decidable c] (m : Mach) (off v o : Nat)
    (h1 : o ≠ off) (h2 : o + 4 ≠ off) :
    (if c then m.wr off v else m).rd64 o = m.rd64 o := by
  split
  · exact rd64_wr_ne m off v o h1 h2
  · rfl

theorem rd64_hiEnable (m : Mach) (f : Nat → Bool) (o : Nat)
    (h1 : o ≠ rHIEISR) (h2 : o + 4 ≠ rHIEISR) :
    (hiEnableWrites m f).rd64 o = m.rd64 o := by
  unfold Mach.rd64 Mach.rd
  rw [hiEnableWrites_mem _ _ _ h1, hiEnableWrites_mem _ _ _ h2]

/-- After `openHw`, the 64-bit value held by the ESR0/ESR1 pair is the
configured event mask OR-ed with the pair's previous contents. -/
theorem openHw_rd64_esr (m : Mach) (umask : Nat) (acc : EvAcc) (hacc : HmAcc)
    (hmask : acc.evMask < 2 ^ 64) (hesr : m.rd64 rESR0 < 2 ^ 64) :
    (openHw m umask acc hacc).rd64 rESR0 = acc.evMask ||| m.rd64 rESR0 := by
  have hesr_eq :
      Mach.rd64 ((if umask &&& 2 ≠ 0 then
          (if umask &&& 1 ≠ 0 then m.wr (am3xxPru0Ctl + c_CONTROL) 0 else m).wr
            (am3xxPru1Ctl + c_CONTROL) 0
        else (if umask &&& 1 ≠ 0 then m.wr (am3xxPru0Ctl + c_CONTROL) 0 else m)).wr rGER 0)
        rESR0 = m.rd64 rESR0 := by
    rw [rd64_wr_ne _ _ _ _ (by decide) (by decide),
        rd64_ite_wr_ne _ _ _ _ _ (by decide) (by decide),
        rd64_ite_wr_ne _ _ _ _ _ (by decide) (by decide)]
  simp only [openHw]
  rw [hesr_eq]
  rw [rd64_wr_ne _ _ _ _ (by decide) (by decide),
      rd64_hiEnable _ _ _ (by decide) (by decide),
      rd64_wr64_self _ _ _ (Nat.or_lt_two_pow hmask hesr)]

/-! ## C2: unmapped channel rejected before any register write -/

/-- C2: when some mapped event's channel has no host-interrupt entry,
`Open` fails with the configuration error naming an unmapped channel,
and the register-write trace is empty — in particular the global
interrupt enable register is never written. -/
theorem open_unmapped_channel_fails (pc : Config) (m0 : Nat → Nat)
    (h : ∃ p ∈ pc.ev2chan, lookupA pc.chan2hint p.2 = none) :
    (∃ c, (∃ se, (se, c) ∈ pc.ev2chan) ∧ lookupA pc.chan2hint c = none ∧
      (openIntc pc m0).err = some (errChanNotMapped c)) ∧
    (openIntc pc m0).mach.trace = [] := by
  obtain ⟨c, hse, hnone, hall⟩ := evLoop_error_of_unmapped pc.chan2hint pc.ev2chan h
  have hout : openIntc pc m0 =
      ⟨some (errChanNotMapped c), ⟨fun o => m0 o % 2 ^ 32, []⟩, 0, fun _ => 0, fun _ => none⟩ := by
    simp only [openIntc, hall]
  rw [hout]
  exact ⟨⟨c, hse, hnone, rfl⟩, rfl⟩

/-- C2 witness: channel 3 of event 17 has no host-interrupt entry. -/
theorem open_unmapped_channel_fails_witness :
    (∃ p ∈ [((16 : Nat), (2 : Nat)), (17, 3)], lookupA [((2 : Nat), (2 : Nat))] p.2 = none) ∧
    ((∃ c, (∃ se, (se, c) ∈ [((16 : Nat), (2 : Nat)), (17, 3)]) ∧
        lookupA [((2 : Nat), (2 : Nat))] c = none ∧
        (openIntc ⟨0, [(16, 2), (17, 3)], [(2, 2)]⟩ (fun _ => 0)).err =
          some (errChanNotMapped c)) ∧
      (openIntc ⟨0, [(16, 2), (17, 3)], [(2, 2)]⟩ (fun _ => 0)).mach.trace = []) :=
  ⟨by decide, open_unmapped_channel_fails ⟨0, [(16, 2), (17, 3)], [(2, 2)]⟩ (fun _ => 0) (by decide)⟩

/-! ## C1: the ESR enable value -/

/-- C1 (amended): for a well-formed configuration whose every mapped
channel has a host-interrupt entry, `Open` succeeds and the ESR0/ESR1
pair ends up holding the union of the mapped event bits OR-ed with the
pair's previous contents (so every mapped bit is set, but previously
enabled bits survive); the computed event mask has bit se set exactly
for the mapped events. -/
theorem open_esr_enable_value (pc : Config) (m0 : Nat → Nat)
    (hwf : pc.WF)
    (hmap : ∀ p ∈ pc.ev2chan, (lookupA pc.chan2hint p.2).isSome) :
    (openIntc pc m0).err = none ∧
    Mach.rd64 (openIntc pc m0).mach rESR0 = ((openIntc pc m0).evMask ||| initEsr m0) ∧
    ∀ se, ((openIntc pc m0).evMask.testBit se = true ↔ ∃ c, (se, c) ∈ pc.ev2chan) := by
  obtain ⟨hwfEv, hwfCh, hndEv, hndCh⟩ := hwf
  obtain ⟨acc, hEv⟩ := evLoop_ok_of_mapped pc.chan2hint pc.ev2chan hmap
    ⟨fun i => Mach.rd ⟨fun o => m0 o % 2 ^ 32, []⟩ (rCMRBase + 4 * i), fun _ => 0, 0, fun _ => none⟩
  obtain ⟨hacc, hCh⟩ := chLoop_ok_of_nodup pc.chan2hint hndCh
    ⟨fun i => Mach.rd ⟨fun o => m0 o % 2 ^ 32, []⟩ (rHMRBase + 4 * i), fun _ => false⟩
    (fun _ _ => rfl)
  have hout : openIntc pc m0 =
      ⟨none, openHw ⟨fun o => m0 o % 2 ^ 32, []⟩ pc.umask acc hacc,
        acc.evMask, acc.sigMask, acc.events⟩ := by
    simp only [openIntc, hEv, hCh]
  rw [hout]
  refine ⟨rfl, ?_, ?_⟩
  · show Mach.rd64 (openHw ⟨fun o => m0 o % 2 ^ 32, []⟩ pc.umask acc hacc) rESR0 =
      acc.evMask ||| initEsr m0
    have hmask : acc.evMask < 2 ^ 64 := evLoop_evMask_lt _ _ _ _ hEv (by norm_num)
    have hesr0 : Mach.rd64 ⟨fun o => m0 o % 2 ^ 32, []⟩ rESR0 = initEsr m0 := rfl
    have hesrlt : Mach.rd64 ⟨fun o => m0 o % 2 ^ 32, []⟩ rESR0 < 2 ^ 64 := by
      show m0 rESR0 % 2 ^ 32 + (m0 (rESR0 + 4) % 2 ^ 32) <<< 32 < 2 ^ 64
      have h1 : m0 rESR0 % 2 ^ 32 < 2 ^ 32 := Nat.mod_lt _ (by norm_num)
      have h2 : m0 (rESR0 + 4) % 2 ^ 32 < 2 ^ 32 := Nat.mod_lt _ (by norm_num)
      rw [Nat.shiftLeft_eq]
      omega
    rw [← hesr0]
    exact openHw_rd64_esr _ _ _ _ hmask hesrlt
  · intro se
    show acc.evMask.testBit se = true ↔ _
    rw [evLoop_evMask_testBit pc.chan2hint pc.ev2chan (fun p hp => (hwfEv p hp).1) _ _ hEv se]
    simp

/-- C1 witness: a concrete valid configuration applied over zeroed
registers. -/
theorem open_esr_enable_value_witness :
    Config.WF ⟨3, [(16, 2)], [(2, 2)]⟩ ∧
    (openIntc ⟨3, [(16, 2)], [(2, 2)]⟩ (fun _ => 0)).err = none ∧
    Mach.rd64 (openIntc ⟨3, [(16, 2)], [(2, 2)]⟩ (fun _ => 0)).mach rESR0 =
      ((openIntc ⟨3, [(16, 2)], [(2, 2)]⟩ (fun _ => 0)).evMask ||| initEsr (fun _ => 0)) :=
  ⟨by decide, (open_esr_enable_value ⟨3, [(16, 2)], [(2, 2)]⟩ (fun _ => 0)
      (by decide) (by decide)).1,
    (open_esr_enable_value ⟨3, [(16, 2)], [(2, 2)]⟩ (fun _ => 0)
      (by decide) (by decide)).2.1⟩

/-- C1 counterexample: with event 16 (only) mapped but bit 5 already
enabled in ESR0 beforehand, the pair ends up holding 0x10020, not the
exact union 0x10000 of the mapped event bits: bit 5 is set although
event 5 is not in the event map. -/
theorem open_esr_exact_union_refuted :
    (openIntc ⟨3, [(16, 2)], [(2, 2)]⟩ (fun o => if o = rESR0 then 32 else 0)).err = none ∧
    (openIntc ⟨3, [(16, 2)], [(2, 2)]⟩ (fun o => if o = rESR0 then 32 else 0)).evMask =
      1 <<< 16 ∧
    Mach.rd64 (openIntc ⟨3, [(16, 2)], [(2, 2)]⟩
      (fun o => if o = rESR0 then 32 else 0)).mach rESR0 = 65568 ∧
    (65568 : Nat) ≠ 1 <<< 16 ∧
    (65568 : Nat).testBit 5 = true ∧
    (openIntc ⟨3, [(16, 2)], [(2, 2)]⟩
      (fun o => if o = rESR0 then 32 else 0)).evMask.testBit 5 = false := by
  decide

/-! ## C5: the channel-map bytes -/

/-- Byte `k` (0-3) of a 32-bit word, as the CMR packs one channel byte
per event, 4 per word. -/
def byteAt (w k : Nat) : Nat := (w >>> (k * 8)) % 256

theorem testBit_byteAt (w k i : Nat) :
    (byteAt w k).testBit i = (decide (i < 8) && w.testBit (k * 8 + i)) := by
  unfold byteAt
  rw [show (256 : Nat) = 2 ^ 8 from rfl, Nat.testBit_mod_two_pow, Nat.testBit_shiftRight]

theorem shl_byte_lt (c k : Nat) (hc : c < 256) (hk : k < 4) : c <<< (k * 8) < 2 ^ 32 := by
  rw [Nat.shiftLeft_eq]
  calc c * 2 ^ (k * 8) ≤ 255 * 2 ^ 24 :=
        Nat.mul_le_mul (by omega) (Nat.pow_le_pow_right (by norm_num) (by omega))
    _ < 2 ^ 32 := by norm_num

theorem byteAt_or_shl_self (w c k : Nat) (hc : c < 256) :
    byteAt (w ||| c <<< (k * 8)) k = byteAt w k ||| c := by
  apply Nat.eq_of_testBit_eq
  intro i
  rw [Nat.testBit_or, testBit_byteAt, testBit_byteAt, Nat.testBit_or, Nat.testBit_shiftLeft]
  rcases lt_or_le i 8 with hi | hi
  · have h1 : k * 8 + i - k * 8 = i := by omega
    have h2 : decide (k * 8 + i ≥ k * 8) = true := by simp
    simp [hi, h1]
  · have h3 : c.testBit i = false := by
      apply Nat.testBit_lt_two_pow
      have h256 : (256 : Nat) ≤ 2 ^ i :=
        calc (256 : Nat) = 2 ^ 8 := by norm_num
          _ ≤ 2 ^ i := Nat.pow_le_pow_right (by norm_num) hi
      omega
    simp [show ¬i < 8 by omega, h3]

theorem byteAt_or_shl_ne (w c k kp : Nat) (hc : c < 256) (hne : k ≠ kp) :
    byteAt (w ||| c <<< (kp * 8)) k = byteAt w k := by
  apply Nat.eq_of_testBit_eq
  intro i
  rw [testBit_byteAt, testBit_byteAt, Nat.testBit_or]
  rcases lt_or_le i 8 with hi | hi
  · have hz : (c <<< (kp * 8)).testBit (k * 8 + i) = false := by
      rw [Nat.testBit_shiftLeft]
      rcases lt_or_le (k * 8 + i) (kp * 8) with hlt | hge
      · simp [show ¬(k * 8 + i ≥ kp * 8) by omega]
      · have hidx : 8 ≤ k * 8 + i - kp * 8 := by omega
        have hcf : c.testBit (k * 8 + i - kp * 8) = false := by
          apply Nat.testBit_lt_two_pow
          have h256 : (256 : Nat) ≤ 2 ^ (k * 8 + i - kp * 8) :=
            calc (256 : Nat) = 2 ^ 8 := by norm_num
              _ ≤ 2 ^ (k * 8 + i - kp * 8) := Nat.pow_le_pow_right (by norm_num) hidx
          omega
        simp [hcf]
    simp [hz]
  · simp [show ¬i < 8 by omega]

/-- One CMR update for event `se1` leaves the byte of a different event
`se` untouched. -/
theorem cmr_update_byte_ne (f : Nat → Nat) (se1 c1 se : Nat) (hne : se ≠ se1)
    (hc1 : c1 < 256) :
    byteAt ((setFun f (se1 / 4) (f (se1 / 4) ||| ((c1 <<< ((se1 % 4) * 8)) % 2 ^ 32)))
      (se / 4)) (se % 4) = byteAt (f (se / 4)) (se % 4) := by
  unfold setFun
  by_cases hw : se / 4 = se1 / 4
  · rw [if_pos hw, Nat.mod_eq_of_lt (shl_byte_lt c1 (se1 % 4) hc1 (by omega)), hw,
      byteAt_or_shl_ne _ _ _ _ hc1 (by omega)]
  · rw [if_neg hw]

theorem mem_keysA_of_mem {l : List (Nat × Nat)} {se c : Nat} (h : (se, c) ∈ l) :
    se ∈ keysA l :=
  List.mem_map_of_mem Prod.fst h

theorem evLoop_cmr_untouched (ch : List (Nat × Nat)) :
    ∀ l : List (Nat × Nat), (∀ p ∈ l, p.2 < 256) →
      ∀ acc acc', evLoop ch l acc = .ok acc' →
        ∀ se, se ∉ keysA l →
          byteAt (acc'.cmr (se / 4)) (se % 4) = byteAt (acc.cmr (se / 4)) (se % 4) := by
  intro l
  induction l with
  | nil =>
    intro _ acc acc' heq se _
    cases heq
    rfl
  | cons hd rest ih =>
    intro hwf acc acc' heq se hnot
    obtain ⟨se1, c1⟩ := hd
    have hkeys : keysA ((se1, c1) :: rest) = se1 :: keysA rest := rfl
    rw [hkeys, List.mem_cons] at hnot
    push_neg at hnot
    cases hc : lookupA ch c1 with
    | none =>
      simp only [evLoop, hc] at heq
      exact absurd heq (by simp)
    | some hi =>
      simp only [evLoop, hc] at heq
      rw [ih (fun p hp => hwf p (List.mem_cons_of_mem _ hp)) _ _ heq se hnot.2]
      exact cmr_update_byte_ne acc.cmr se1 c1 se hnot.1
        (hwf (se1, c1) (List.mem_cons_self _ _))

theorem evLoop_cmr_byte (ch : List (Nat × Nat)) :
    ∀ l : List (Nat × Nat), (∀ p ∈ l, p.2 < 256) → (keysA l).Nodup →
      ∀ acc acc', evLoop ch l acc = .ok acc' →
        ∀ se c, (se, c) ∈ l →
          byteAt (acc'.cmr (se / 4)) (se % 4) =
            byteAt (acc.cmr (se / 4)) (se % 4) ||| c := by
  intro l
  induction l with
  | nil =>
    intro _ _ acc acc' _ se c hmem
    exact absurd hmem (List.not_mem_nil _)
  | cons hd rest ih =>
    intro hwf hnd acc acc' heq se c hmem
    obtain ⟨se1, c1⟩ := hd
    have hkeys : keysA ((se1, c1) :: rest) = se1 :: keysA rest := rfl
    rw [hkeys, List.nodup_cons] at hnd
    have hc1 : c1 < 256 := hwf (se1, c1) (List.mem_cons_self _ _)
    cases hc : lookupA ch c1 with
    | none =>
      simp only [evLoop, hc] at heq
      exact absurd heq (by simp)
    | some hi =>
      simp only [evLoop, hc] at heq
      rcases List.mem_cons.mp hmem with hhd | htl
      · cases hhd
        rw [evLoop_cmr_untouched ch rest (fun p hp => hwf p (List.mem_cons_of_mem _ hp))
          _ _ heq se hnd.1]
        show byteAt ((setFun acc.cmr (se / 4)
          (acc.cmr (se / 4) ||| ((c <<< ((se % 4) * 8)) % 2 ^ 32))) (se / 4)) (se % 4) = _
        unfold setFun
        rw [if_pos rfl, Nat.mod_eq_of_lt (shl_byte_lt c (se % 4) hc1 (by omega)),
          byteAt_or_shl_self _ _ _ hc1]
      · have hse_ne : se ≠ se1 := by
          intro hcc
          exact hnd.1 (hcc ▸ mem_keysA_of_mem htl)
        rw [ih (fun p hp => hwf p (List.mem_cons_of_mem _ hp)) hnd.2 _ _ heq se c htl,
          cmr_update_byte_ne acc.cmr se1 c1 se hse_ne hc1]

theorem evLoop_cmr_lt (ch : List (Nat × Nat)) :
    ∀ l : List (Nat × Nat), ∀ acc acc', evLoop ch l acc = .ok acc' →
      (∀ i, acc.cmr i < 2 ^ 32) → ∀ i, acc'.cmr i < 2 ^ 32 := by
  intro l
  induction l with
  | nil =>
    intro acc acc' heq h i
    cases heq
    exact h i
  | cons hd rest ih =>
    intro acc acc' heq h i
    obtain ⟨se1, c1⟩ := hd
    cases hc : lookupA ch c1 with
    | none =>
      simp only [evLoop, hc] at heq
      exact absurd heq (by simp)
    | some hi =>
      simp only [evLoop, hc] at heq
      refine ih _ _ heq ?_ i
      intro j
      show (if j = se1 / 4 then acc.cmr (se1 / 4) ||| ((c1 <<< ((se1 % 4) * 8)) % 2 ^ 32)
        else acc.cmr j) < 2 ^ 32
      split
      · exact Nat.or_lt_two_pow (h _) (Nat.mod_lt _ (by norm_num))
      · exact h j

theorem getD_range_map (f : Nat → Nat) (n i : Nat) (h : i < n) :
    ((List.range n).map f).getD i 0 = f i := by
  rw [List.getD_eq_getElem?_getD, List.getElem?_map, List.getElem?_range h]
  rfl

/-- After `openHw`, CMR word `w` holds exactly the accumulated image. -/
theorem openHw_mem_cmr (m : Mach) (umask : Nat) (acc : EvAcc) (hacc : HmAcc)
    (w : Nat) (hw : w < 16) (hlt : acc.cmr w < 2 ^ 32) :
    (openHw m umask acc hacc).mem (rCMRBase + 4 * w) = acc.cmr w := by
  simp only [openHw]
  rw [mem_wr_ne _ _ _ _ (by simp [rCMRBase, rGER]; omega)]
  rw [hiEnableWrites_mem _ _ _ (by simp [rCMRBase, rHIEISR]; omega)]
  rw [mem_wr64_ne _ _ _ _ (by simp [rCMRBase, rESR0]; omega) (by simp [rCMRBase, rESR0]; omega)]
  rw [mem_wr64_ne _ _ _ _ (by simp [rCMRBase, rSITR0]; omega) (by simp [rCMRBase, rSITR0]; omega)]
  rw [writeList_mem_lt _ _ _ _ (by simp [rCMRBase, rHMRBase]; omega)]
  rw [writeList_mem_at _ _ _ _ (by simpa using hw)]
  rw [getD_range_map _ _ _ (by simpa using hw)]
  exact Nat.mod_eq_of_lt hlt

/-- C5 (amended): after a successful `Open`, the channel-map byte of a
mapped event `se` holds the bitwise OR of the byte's previous hardware
contents with the target channel — the target channel exactly when the
prior byte was zero, but stale set bits survive, because the CMR image
is read from the hardware and only OR-ed. -/
theorem open_cmr_byte_or (pc : Config) (m0 : Nat → Nat)
    (hwf : pc.WF)
    (hmap : ∀ p ∈ pc.ev2chan, (lookupA pc.chan2hint p.2).isSome) :
    (openIntc pc m0).err = none ∧
    ∀ se c, (se, c) ∈ pc.ev2chan →
      byteAt ((openIntc pc m0).mach.mem (rCMRBase + 4 * (se / 4))) (se % 4) =
        byteAt (m0 (rCMRBase + 4 * (se / 4)) % 2 ^ 32) (se % 4) ||| c := by
  obtain ⟨hwfEv, hwfCh, hndEv, hndCh⟩ := hwf
  obtain ⟨acc, hEv⟩ := evLoop_ok_of_mapped pc.chan2hint pc.ev2chan hmap
    ⟨fun i => Mach.rd ⟨fun o => m0 o % 2 ^ 32, []⟩ (rCMRBase + 4 * i), fun _ => 0, 0, fun _ => none⟩
  obtain ⟨hacc, hCh⟩ := chLoop_ok_of_nodup pc.chan2hint hndCh
    ⟨fun i => Mach.rd ⟨fun o => m0 o % 2 ^ 32, []⟩ (rHMRBase + 4 * i), fun _ => false⟩
    (fun _ _ => rfl)
  have hout : openIntc pc m0 =
      ⟨none, openHw ⟨fun o => m0 o % 2 ^ 32, []⟩ pc.umask acc hacc,
        acc.evMask, acc.sigMask, acc.events⟩ := by
    simp only [openIntc, hEv, hCh]
  rw [hout]
  refine ⟨rfl, ?_⟩
  intro se c hmem
  have hse : se < 64 := by
    have := (hwfEv _ hmem).1
    simpa [nEvents] using this
  have hc256 : ∀ p ∈ pc.ev2chan, p.2 < 256 := by
    intro p hp
    have := (hwfEv p hp).2
    simp only [nChannels] at this
    omega
  have hcmrlt : acc.cmr (se / 4) < 2 ^ 32 := by
    refine evLoop_cmr_lt pc.chan2hint pc.ev2chan _ _ hEv ?_ (se / 4)
    intro i
    exact Nat.mod_lt _ (by norm_num)
  show byteAt ((openHw ⟨fun o => m0 o % 2 ^ 32, []⟩ pc.umask acc hacc).mem
    (rCMRBase + 4 * (se / 4))) (se % 4) = _
  rw [openHw_mem_cmr _ _ _ _ (se / 4) (by omega) hcmrlt]
  rw [evLoop_cmr_byte pc.chan2hint pc.ev2chan hc256 hndEv _ _ hEv se c hmem]
  rfl

/-- C5 witness: a concrete valid configuration applied over zeroed
registers; the byte of event 16 (word 4, byte 0) holds channel 2. -/
theorem open_cmr_byte_or_witness :
    Config.WF ⟨3, [(16, 2)], [(2, 2)]⟩ ∧
    byteAt ((openIntc ⟨3, [(16, 2)], [(2, 2)]⟩ (fun _ => 0)).mach.mem
      (rCMRBase + 4 * (16 / 4))) (16 % 4) =
      byteAt ((fun _ => (0 : Nat)) (rCMRBase + 4 * (16 / 4)) % 2 ^ 32) (16 % 4) ||| 2 :=
  ⟨by decide,
   (open_cmr_byte_or ⟨3, [(16, 2)], [(2, 2)]⟩ (fun _ => 0) (by decide) (by decide)).2
     16 2 (by decide)⟩

/-- C5 counterexample: with the CMR word of event 16 holding 0xFF before
`Open`, the byte written for event 16 is 0xFF (prior contents OR-ed with
channel 2), not the target channel 2 the claim promises regardless of
prior contents. -/
theorem open_cmr_byte_exact_refuted :
    (openIntc ⟨3, [(16, 2)], [(2, 2)]⟩
      (fun o => if o = rCMRBase + 4 * 4 then 255 else 0)).err = none ∧
    byteAt ((openIntc ⟨3, [(16, 2)], [(2, 2)]⟩
      (fun o => if o = rCMRBase + 4 * 4 then 255 else 0)).mach.mem
      (rCMRBase + 4 * (16 / 4))) (16 % 4) = 255 ∧
    (255 : Nat) ≠ 2 := by
  decide

end Pru
